import Mathlib

/-!
# Verification of the quantum-foam-rng generation pipeline

Shallow embedding of `QuantumFoamRNG_Free.generate_entropy` (src/free.py,
identically duplicated in src/app.py) and of the Flask route
`/api/v1/generate` (src/app.py).

The Python function receives, for each of the 9 bases, a backend result
(`job.result()` followed by `get_counts()`), i.e. an outcome-count
histogram whose keys are 2-bit outcome labels in integer or string form.
Everything after the backend calls is pure, so we embed the run as a
function of the per-basis backend responses.  A backend call that raises
is modelled as an `Except.error`; the Python exceptions that the pure part
itself can raise (`ValueError` from `int(...)`, `ZeroDivisionError` from
the expectation-value division) are modelled with the same error monad.
The expectation value, a Python float, is modelled exactly in `ℚ`
(numerators and denominators are small integers, so the float in the
source computes the same rational whenever it is exactly representable;
the claims about it are stated over exact rational arithmetic).
-/

set_option maxHeartbeats 1000000
set_option linter.unusedVariables false

namespace QuantumFoam

/-- A key of the outcome histogram returned by `get_counts()`: Python
`counts.items()` keys are `int` or `str` (src/free.py line 137). -/
inductive QKey where
  | intKey (n : Nat)
  | strKey (s : List Char)
deriving DecidableEq, Repr

/-- An outcome histogram: the `counts` dict, in iteration (insertion)
order.  A Python dict has pairwise-distinct keys; none of the theorems
below needs that assumption, so it is not imposed. -/
abbrev Hist := List (QKey × Nat)

/-- The exceptions a run can raise: an adapter error from
`job.result()`/`get_counts()`, a `ValueError` from `int(...)`, and the
`ZeroDivisionError` from `... / total`. -/
inductive RunErr where
  | adapter
  | valueError
  | zeroDivision
deriving DecidableEq, Repr

/-- `counts.get(k, 0)`: dict lookup with default 0 (src/free.py
lines 148-151). -/
def getCount : Hist → QKey → Nat
  | [], _ => 0
  | (k', c) :: rest, k => if k' = k then c else getCount rest k

/-- `sum(counts.values())` (src/free.py line 147). -/
def histTotal (h : Hist) : Nat := (h.map Prod.snd).sum

/-- Binary digits of `n`, most significant first, with explicit fuel
(first argument); empty for `n = 0`. -/
def binAux : Nat → Nat → List Char
  | 0, _ => []
  | fuel + 1, n =>
    if n = 0 then [] else binAux fuel (n / 2) ++ [if n % 2 = 1 then '1' else '0']

/-- Python `format(n, 'b')` for a natural number: binary digits, `"0"`
for zero. -/
def natToBin (n : Nat) : List Char := if n = 0 then ['0'] else binAux n n

/-- Python `str.zfill(w)` for a digit string: pad with `'0'` on the left
up to width `w`. -/
def zfill (w : Nat) (s : List Char) : List Char :=
  List.replicate (w - s.length) '0' ++ s

/-- The `outcome_str` of src/free.py lines 137-140: an integer key is
rendered with `format(outcome, '02b')` (binary, zero-padded to width 2),
a string key is used as is. -/
def outcomeStr : QKey → List Char
  | .intKey n => zfill 2 (natToBin n)
  | .strKey s => s

/-- Python `s[-2:]`: the last two characters (the whole string when it is
shorter than two). -/
def lastTwo (s : List Char) : List Char := s.drop (s.length - 2)

/-- Python `int(c)` on a single character: its digit value, an error for
a non-digit character. -/
def charToInt? (c : Char) : Option Nat :=
  if '0' ≤ c ∧ c ≤ '9' then some (c.toNat - '0'.toNat) else none

/-- `[int(b) for b in s]`: left to right, raising `ValueError` at the
first non-digit character. -/
def charsToInts : List Char → Except RunErr (List Nat)
  | [] => .ok []
  | c :: cs =>
    match charToInt? c with
    | some d => (charsToInts cs).map (fun ds => d :: ds)
    | none => .error .valueError

/-- `bits = [int(b) for b in outcome_str[-2:]]` (src/free.py line 143). -/
def bitsOfKey (k : QKey) : Except RunErr (List Nat) :=
  charsToInts (lastTwo (outcomeStr k))

/-- The bit-extraction loop over one histogram (src/free.py lines
136-144): for each entry `(outcome, count)`, in iteration order, append
`bits * count` (the 2-bit pattern of the outcome, repeated `count`
times) to the pooled bit list. -/
def histBits : Hist → Except RunErr (List Nat)
  | [] => .ok []
  | (k, c) :: rest => do
    let bs ← bitsOfKey k
    let rs ← histBits rest
    pure ((List.replicate c bs).flatten ++ rs)

/-- `n_00 = counts.get('00', 0) + counts.get('0', 0) + counts.get(0, 0)`
(src/free.py line 148). -/
def n00 (h : Hist) : Nat :=
  getCount h (.strKey ['0', '0']) + getCount h (.strKey ['0']) + getCount h (.intKey 0)

/-- `n_11 = counts.get('11', 0) + counts.get('3', 0) + counts.get(3, 0)`
(src/free.py line 149). -/
def n11 (h : Hist) : Nat :=
  getCount h (.strKey ['1', '1']) + getCount h (.strKey ['3']) + getCount h (.intKey 3)

/-- `n_01 = counts.get('01', 0) + counts.get('1', 0) + counts.get(1, 0)`
(src/free.py line 150). -/
def n01 (h : Hist) : Nat :=
  getCount h (.strKey ['0', '1']) + getCount h (.strKey ['1']) + getCount h (.intKey 1)

/-- `n_10 = counts.get('10', 0) + counts.get('2', 0) + counts.get(2, 0)`
(src/free.py line 151). -/
def n10 (h : Hist) : Nat :=
  getCount h (.strKey ['1', '0']) + getCount h (.strKey ['2']) + getCount h (.intKey 2)

/-- `(n_00 + n_11 - n_01 - n_10) / total`, in exact rational
arithmetic. -/
def expValQ (h : Hist) : ℚ :=
  ((n00 h : ℚ) + (n11 h : ℚ) - (n01 h : ℚ) - (n10 h : ℚ)) / (histTotal h : ℚ)

/-- The expectation-value computation of src/free.py lines 147-153:
Python raises `ZeroDivisionError` when `total == 0`. -/
def expVal (h : Hist) : Except RunErr ℚ :=
  if histTotal h = 0 then .error .zeroDivision else .ok (expValQ h)

/-- The collection loop of src/free.py lines 127-154, over the per-basis
backend responses in basis order: for each basis, wait for the backend
result (an error there aborts the run), extract its bits, then compute
its expectation value.  Returns the pooled `all_bits` and the list
`expectation_values`. -/
def collectLoop : List (Except RunErr Hist) → Except RunErr (List Nat × List ℚ)
  | [] => .ok ([], [])
  | r :: rest => do
    let h ← r
    let bs ← histBits h
    let e ← expVal h
    let p ← collectLoop rest
    pure (bs ++ p.1, e :: p.2)

/-- Core of Python `int(s, 2)`: left fold accumulating the binary value,
`ValueError` at the first character that is not `'0'` or `'1'`. -/
def binValAux : Nat → List Char → Except RunErr Nat
  | acc, [] => .ok acc
  | acc, c :: cs =>
    if c = '0' then binValAux (2 * acc) cs
    else if c = '1' then binValAux (2 * acc + 1) cs
    else .error .valueError

/-- Python `int(s, 2)` on a digit string: `ValueError` on the empty
string, otherwise the binary value. -/
def intBase2 : List Char → Except RunErr Nat
  | [] => .error .valueError
  | c :: cs => binValAux 0 (c :: cs)

/-- The hexadecimal digit character for `n < 16` (lowercase, as Python
`hex`). -/
def hexDigitChar (n : Nat) : Char :=
  if n < 10 then Char.ofNat ('0'.toNat + n) else Char.ofNat ('a'.toNat + (n - 10))

/-- Hexadecimal digits of `n`, most significant first, with explicit
fuel; empty for `n = 0`. -/
def hexAux : Nat → Nat → List Char
  | 0, _ => []
  | fuel + 1, n =>
    if n = 0 then [] else hexAux fuel (n / 16) ++ [hexDigitChar (n % 16)]

/-- Python `hex(n)[2:]` for a natural number: lowercase hexadecimal
digits without leading zeros, `"0"` for zero. -/
def natToHex (n : Nat) : List Char := if n = 0 then ['0'] else hexAux n n

/-- The fields of the dict returned by `generate_entropy` that the claims
are about.  `bits` and `hex` are the `'bits'`/`'hex'` strings;
`expectationValues` is the list whose numpy standard deviation is the
returned `'foam_strength'` (a float diagnostic, not modelled further). -/
structure GenOutput where
  bits : List Char
  hex : List Char
  expectationValues : List ℚ
deriving DecidableEq, Repr

/-- `shots_per_basis = int(np.ceil(n_bits / (2 * len(self.bases))))` with
9 bases (src/free.py line 105). -/
def shotsPerBasis (n_bits : Nat) : Nat := (n_bits + 17) / 18

/-- `QuantumFoamRNG_Free.generate_entropy` (src/free.py lines 76-201),
as a function of the per-basis backend responses.  `theta` only
parametrizes the circuits submitted to the external device (lines
113-117), so it does not occur in the pure part; it is kept in the
signature to mirror the source.  After the collection loop:
`entropy_bits = all_bits[:n_bits]`,
`bit_string = ''.join(map(str, entropy_bits))`,
`hex_string = hex(int(bit_string, 2))[2:].zfill(n_bits // 4)`
(lines 159-162). -/
def generate_entropy (theta : ℚ) (n_bits : Nat)
    (results : List (Except RunErr Hist)) : Except RunErr GenOutput := do
  let p ← collectLoop results
  let entropy_bits := p.1.take n_bits
  let bit_string := entropy_bits.map Nat.digitChar
  let v ← intBase2 bit_string
  pure { bits := bit_string
         hex := zfill (n_bits / 4) (natToHex v)
         expectationValues := p.2 }

/-- The three response shapes of the Flask route `/api/v1/generate`
(src/app.py lines 246-315): a 200 whose body carries
`'entropy': result['hex']`, a 400 from parameter validation, and a 500
from the catch-all `except` around the run. -/
inductive ApiResponse where
  | success (entropy : List Char)
  | badRequest (code : Nat)
  | serverError (e : RunErr)
deriving DecidableEq, Repr

/-- The route handler `generate_entropy` of src/app.py lines 246-315,
after request parsing (out of scope per the spec): validate
`1 ≤ bits ≤ 2048` and `0 ≤ theta ≤ 90`, then run the generator
synchronously and answer with its `'hex'` string. -/
def generateRoute (bits : Int) (theta : ℚ)
    (results : List (Except RunErr Hist)) : ApiResponse :=
  if bits < 1 ∨ bits > 2048 then .badRequest 400
  else if theta < 0 ∨ theta > 90 then .badRequest 400
  else
    match generate_entropy theta bits.toNat results with
    | .ok out => .success out.hex
    | .error e => .serverError e

/-- Timed model of the collection loop (src/free.py lines 127-133).  All
jobs are submitted before the loop starts (lines 113-117); measure time
from the start of collection, and let entry `t` of the list be the
absolute completion time of that basis's backend job (its
submission-to-result latency).  `job.result()` blocks until the job's
completion instant - or returns immediately when the job already
finished - so waiting for one job advances the clock to
`max clock t`; the pure bookkeeping between waits costs no time. -/
def collectClock : List Nat → Nat → Nat
  | [], clock => clock
  | t :: ts, clock => collectClock ts (max clock t)

/-- `Except.isOk` as a plain boolean, used to state hypotheses that a
sub-computation succeeded without naming its (rational-valued) result. -/
def exOk {α : Type} : Except RunErr α → Bool
  | .ok _ => true
  | .error _ => false

/-- A well-formed histogram key in the sense of the spec's encoding
table: an integer `0-3`, or the 2-bit string form of an outcome. -/
def binChar (c : Char) : Prop := c = '0' ∨ c = '1'

/-- A key given as integer `0-3` or as a two-character binary string
(the spec's string form of a 2-bit outcome, `0 ↔ "00"`, ..,
`3 ↔ "11"`). -/
def GoodKey : QKey → Prop
  | .intKey n => n ≤ 3
  | .strKey [a, b] => binChar a ∧ binChar b
  | .strKey _ => False

/-- A histogram in which every outcome occurred once: `{"01": 1}` etc.,
used as concrete backend responses in the closed theorems below. -/
def hist01 : Hist := [(QKey.strKey ['0', '1'], 1)]

def hist00 : Hist := [(QKey.strKey ['0', '0'], 1)]

def hist10 : Hist := [(QKey.strKey ['1', '0'], 1)]

def hist11x2 : Hist := [(QKey.strKey ['1', '1'], 2)]

def histInt1 : Hist := [(QKey.intKey 1, 1)]

def histInt2 : Hist := [(QKey.intKey 2, 1)]

/-- The balanced 50-shot histogram of the spec's end-to-end scenario:
`{"00":13, "01":12, "10":12, "11":13}`. -/
def histBalanced50 : Hist :=
  [(QKey.strKey ['0', '0'], 13), (QKey.strKey ['0', '1'], 12),
   (QKey.strKey ['1', '0'], 12), (QKey.strKey ['1', '1'], 13)]

/-- The twelve histogram keys read by the expectation-value computation
(src/free.py lines 148-151), in the order they are summed. -/
def expKeys : List QKey :=
  [.strKey ['0', '0'], .strKey ['0'], .intKey 0,
   .strKey ['1', '1'], .strKey ['3'], .intKey 3,
   .strKey ['0', '1'], .strKey ['1'], .intKey 1,
   .strKey ['1', '0'], .strKey ['2'], .intKey 2]

/-! ## Helper lemmas about the embedded operations -/

theorem bind_ok {α β : Type} (a : α) (f : α → Except RunErr β) :
    (Except.ok a >>= f) = f a := rfl

theorem bind_err {α β : Type} (e : RunErr) (f : α → Except RunErr β) :
    ((Except.error e : Except RunErr α) >>= f) = .error e := rfl

theorem map_eq_ok {α β : Type} (f : α → β) (x : Except RunErr α) (b : β)
    (h : x.map f = .ok b) : ∃ a, x = .ok a ∧ f a = b := by
  cases x with
  | ok a => exact ⟨a, rfl, by simpa [Except.map] using h⟩
  | error e => simp [Except.map] at h

theorem exOk_iff {α : Type} (x : Except RunErr α) :
    exOk x = true ↔ ∃ a, x = .ok a := by
  cases x <;> simp [exOk]

/-- Characterization of a run whose collection loop succeeded. -/
theorem generate_eq (theta : ℚ) (n : Nat) (results : List (Except RunErr Hist))
    (p : List Nat × List ℚ) (hc : collectLoop results = .ok p) :
    generate_entropy theta n results =
      (intBase2 ((p.1.take n).map Nat.digitChar)).map
        (fun v => ⟨(p.1.take n).map Nat.digitChar, zfill (n / 4) (natToHex v), p.2⟩) := by
  show (collectLoop results >>= fun q =>
      intBase2 ((q.1.take n).map Nat.digitChar) >>= fun v =>
        (pure (GenOutput.mk ((q.1.take n).map Nat.digitChar)
          (zfill (n / 4) (natToHex v)) q.2) : Except RunErr GenOutput)) =
    (intBase2 ((p.1.take n).map Nat.digitChar)).map
      (fun v => GenOutput.mk ((p.1.take n).map Nat.digitChar)
        (zfill (n / 4) (natToHex v)) p.2)
  rw [hc, bind_ok]
  cases hv : intBase2 ((p.1.take n).map Nat.digitChar) with
  | ok v => rfl
  | error e => rfl

theorem binValAux_chars :
    ∀ (cs : List Char) (acc v : Nat), binValAux acc cs = .ok v →
      ∀ c ∈ cs, c = '0' ∨ c = '1' := by
  intro cs
  induction cs with
  | nil => intro acc v _ c hc; simp at hc
  | cons c cs ih =>
    intro acc v h d hd
    rw [binValAux] at h
    by_cases h0 : c = '0'
    · rw [if_pos h0] at h
      rcases List.mem_cons.mp hd with hd | hd
      · exact Or.inl (hd.trans h0)
      · exact ih _ v h d hd
    · rw [if_neg h0] at h
      by_cases h1 : c = '1'
      · rw [if_pos h1] at h
        rcases List.mem_cons.mp hd with hd | hd
        · exact Or.inr (hd.trans h1)
        · exact ih _ v h d hd
      · rw [if_neg h1] at h; exact absurd h (by simp)

theorem binValAux_isOk :
    ∀ (cs : List Char), (∀ c ∈ cs, c = '0' ∨ c = '1') →
      ∀ acc, ∃ v, binValAux acc cs = .ok v := by
  intro cs
  induction cs with
  | nil => intro _ acc; exact ⟨acc, rfl⟩
  | cons c cs ih =>
    intro hcs acc
    rcases hcs c (List.mem_cons_self c cs) with h0 | h0 <;> subst h0
    · rw [binValAux, if_pos rfl]
      exact ih (fun d hd => hcs d (List.mem_cons_of_mem _ hd)) (2 * acc)
    · rw [binValAux, if_neg (by decide), if_pos rfl]
      exact ih (fun d hd => hcs d (List.mem_cons_of_mem _ hd)) (2 * acc + 1)

theorem binValAux_lt :
    ∀ (cs : List Char) (acc v : Nat), binValAux acc cs = .ok v →
      v < (acc + 1) * 2 ^ cs.length := by
  intro cs
  induction cs with
  | nil =>
    intro acc v h
    rw [binValAux] at h
    cases h
    simp only [List.length_nil, pow_zero, Nat.mul_one]
    exact Nat.lt_succ_self acc
  | cons c cs ih =>
    intro acc v h
    rw [binValAux] at h
    by_cases h0 : c = '0'
    · rw [if_pos h0] at h
      have := ih (2 * acc) v h
      calc v < (2 * acc + 1) * 2 ^ cs.length := this
        _ ≤ ((acc + 1) * 2) * 2 ^ cs.length :=
          Nat.mul_le_mul_right _ (by omega)
        _ = (acc + 1) * 2 ^ (c :: cs).length := by
          rw [List.length_cons, pow_succ]; ring
    · rw [if_neg h0] at h
      by_cases h1 : c = '1'
      · rw [if_pos h1] at h
        have := ih (2 * acc + 1) v h
        calc v < (2 * acc + 1 + 1) * 2 ^ cs.length := this
          _ = (acc + 1) * 2 ^ (c :: cs).length := by
            rw [List.length_cons, pow_succ]; ring
      · rw [if_neg h1] at h; exact absurd h (by simp)

theorem intBase2_lt (cs : List Char) (v : Nat) (h : intBase2 cs = .ok v) :
    v < 2 ^ cs.length := by
  cases cs with
  | nil => exact absurd h (by simp [intBase2])
  | cons c cs =>
    have := binValAux_lt (c :: cs) 0 v h
    simpa using this

theorem intBase2_chars (cs : List Char) (v : Nat) (h : intBase2 cs = .ok v) :
    ∀ c ∈ cs, c = '0' ∨ c = '1' := by
  cases cs with
  | nil => exact absurd h (by simp [intBase2])
  | cons c cs => exact binValAux_chars (c :: cs) 0 v h

theorem intBase2_isOk (cs : List Char) (hne : cs ≠ [])
    (hcs : ∀ c ∈ cs, c = '0' ∨ c = '1') : ∃ v, intBase2 cs = .ok v := by
  cases cs with
  | nil => exact absurd rfl hne
  | cons c cs => exact binValAux_isOk (c :: cs) hcs 0

theorem zfill_length (w : Nat) (s : List Char) :
    (zfill w s).length = (w - s.length) + s.length := by
  simp [zfill]

theorem hexAux_length_le :
    ∀ (fuel n k : Nat), n ≤ fuel → n < 16 ^ k → (hexAux fuel n).length ≤ k := by
  intro fuel
  induction fuel with
  | zero => intro n k _ _; simp [hexAux]
  | succ fuel ih =>
    intro n k hn hk
    rw [hexAux]
    by_cases h0 : n = 0
    · simp [h0]
    · rw [if_neg h0]
      cases k with
      | zero => simp at hk; omega
      | succ k =>
        have hdiv : n / 16 < 16 ^ k := by
          rw [Nat.div_lt_iff_lt_mul (by norm_num)]
          calc n < 16 ^ (k + 1) := hk
            _ = 16 ^ k * 16 := by rw [pow_succ]
        have hfuel : n / 16 ≤ fuel := by
          have : n / 16 < n := Nat.div_lt_self (by omega) (by norm_num)
          omega
        have := ih (n / 16) k hfuel hdiv
        simp only [List.length_append, List.length_cons, List.length_nil]
        omega

theorem natToHex_length_le (v k : Nat) (hk : 1 ≤ k) (hv : v < 16 ^ k) :
    (natToHex v).length ≤ k := by
  rw [natToHex]
  by_cases h0 : v = 0
  · simp [h0]; omega
  · rw [if_neg h0]; exact hexAux_length_le v v k le_rfl hv

theorem histBits_cons_of (k : QKey) (bs : List Nat) (c : Nat) (rest : Hist)
    (hb : bitsOfKey k = .ok bs) :
    histBits ((k, c) :: rest) =
      (histBits rest).map (fun rs => (List.replicate c bs).flatten ++ rs) := by
  show (bitsOfKey k >>= fun bs => _) = _
  rw [hb, bind_ok]
  cases hr : histBits rest with
  | ok rs => rw [bind_ok]; rfl
  | error e => rfl

theorem histBits_append (xs ys : Hist) :
    histBits (xs ++ ys) =
      (histBits xs) >>= fun ps => (histBits ys).map (fun qs => ps ++ qs) := by
  induction xs with
  | nil =>
    rw [List.nil_append]
    show histBits ys = Except.ok [] >>= fun ps => (histBits ys).map (fun qs => ps ++ qs)
    rw [bind_ok]
    cases histBits ys <;> simp [Except.map]
  | cons e xs ih =>
    obtain ⟨k, c⟩ := e
    show (bitsOfKey k >>= fun bs => _) = ((bitsOfKey k >>= fun bs => _) >>= fun ps => _)
    cases hb : bitsOfKey k with
    | error e => rw [bind_err, bind_err, bind_err]
    | ok bs =>
      rw [bind_ok, bind_ok]
      show (histBits (xs ++ ys) >>= fun rs => _) = ((histBits xs >>= fun rs => _) >>= fun ps => _)
      rw [ih]
      cases hx : histBits xs with
      | error e => rw [bind_err, bind_err, bind_err]
      | ok ps =>
        rw [bind_ok, bind_ok]
        cases hy : histBits ys with
        | error e => simp [Except.map, bind_err]
        | ok qs => simp [Except.map, bind_ok, List.append_assoc]

theorem collectLoop_append (xs ys : List (Except RunErr Hist)) :
    collectLoop (xs ++ ys) =
      (collectLoop xs) >>= fun p =>
        (collectLoop ys).map (fun q => (p.1 ++ q.1, p.2 ++ q.2)) := by
  induction xs with
  | nil =>
    rw [List.nil_append]
    show collectLoop ys = Except.ok (([], []) : List Nat × List ℚ) >>= _
    rw [bind_ok]
    cases collectLoop ys <;> simp [Except.map]
  | cons r xs ih =>
    show (r >>= fun h => _) = ((r >>= fun h => _) >>= fun p => _)
    cases r with
    | error e => rw [bind_err, bind_err, bind_err]
    | ok h =>
      rw [bind_ok, bind_ok]
      cases hb : histBits h with
      | error e => rw [bind_err, bind_err, bind_err]
      | ok bs =>
        rw [bind_ok, bind_ok]
        cases he : expVal h with
        | error e => rw [bind_err, bind_err, bind_err]
        | ok ev =>
          rw [bind_ok, bind_ok]
          show (collectLoop (xs ++ ys) >>= fun p => _) = ((collectLoop xs >>= fun p => _) >>= fun p => _)
          rw [ih]
          cases hx : collectLoop xs with
          | error e => rw [bind_err, bind_err, bind_err]
          | ok p =>
            rw [bind_ok, bind_ok]
            cases hy : collectLoop ys with
            | error e => simp [Except.map, bind_err]
            | ok q => simp [Except.map, bind_ok, List.append_assoc]

theorem generate_err (theta : ℚ) (n : Nat) (results : List (Except RunErr Hist))
    (e : RunErr) (hc : collectLoop results = .error e) :
    generate_entropy theta n results = .error e := by
  show (collectLoop results >>= fun p => _) = _
  rw [hc, bind_err]

theorem getCount_cons (k' : QKey) (c : Nat) (t : Hist) (k : QKey) :
    getCount ((k', c) :: t) k = if k' = k then c else getCount t k := rfl

theorem sum_map_getCount_cons :
    ∀ (ks : List QKey) (k₀ : QKey) (c₀ : Nat) (t : Hist), ks.Nodup →
      (ks.map (getCount ((k₀, c₀) :: t))).sum ≤ c₀ + (ks.map (getCount t)).sum := by
  intro ks
  induction ks with
  | nil => intro k₀ c₀ t _; simp
  | cons k ks ih =>
    intro k₀ c₀ t hnd
    rw [List.nodup_cons] at hnd
    obtain ⟨hk, hnd⟩ := hnd
    simp only [List.map_cons, List.sum_cons]
    by_cases he : k₀ = k
    · subst he
      rw [getCount_cons, if_pos rfl]
      have hmap : ks.map (getCount ((k₀, c₀) :: t)) = ks.map (getCount t) := by
        apply List.map_congr_left
        intro a ha
        rw [getCount_cons, if_neg]
        intro hka
        exact hk (by rw [hka]; exact ha)
      rw [hmap]
      have h1 : (ks.map (getCount t)).sum ≤ getCount t k₀ + (ks.map (getCount t)).sum :=
        Nat.le_add_left _ _
      omega
    · rw [getCount_cons, if_neg he]
      have := ih k₀ c₀ t hnd
      omega

theorem sum_map_getCount_le :
    ∀ (h : Hist) (ks : List QKey), ks.Nodup → (ks.map (getCount h)).sum ≤ histTotal h := by
  intro h
  induction h with
  | nil =>
    intro ks _
    have hz : ks.map (getCount []) = ks.map (fun _ => 0) :=
      List.map_congr_left (fun a _ => rfl)
    rw [hz]
    simp [histTotal]
  | cons e t ih =>
    intro ks hnd
    obtain ⟨k₀, c₀⟩ := e
    calc (ks.map (getCount ((k₀, c₀) :: t))).sum
        ≤ c₀ + (ks.map (getCount t)).sum := sum_map_getCount_cons ks k₀ c₀ t hnd
      _ ≤ c₀ + histTotal t := by have := ih ks hnd; omega
      _ = histTotal ((k₀, c₀) :: t) := by simp [histTotal]

/-- The four outcome-class counts together never exceed the histogram
total: the twelve keys the expectation computation reads are pairwise
distinct, so each histogram entry is counted at most once. -/
theorem nsum_le_total (h : Hist) :
    n00 h + n01 h + n10 h + n11 h ≤ histTotal h := by
  have hnd : expKeys.Nodup := by decide
  have hle := sum_map_getCount_le h expKeys hnd
  simp only [expKeys, List.map_cons, List.map_nil, List.sum_cons, List.sum_nil] at hle
  simp only [n00, n01, n10, n11]
  omega

theorem collectLoop_zeroDiv (pre post : List (Except RunErr Hist)) (h : Hist)
    (hpre : exOk (collectLoop pre) = true)
    (hb : exOk (histBits h) = true) (ht : histTotal h = 0) :
    collectLoop (pre ++ .ok h :: post) = .error .zeroDivision := by
  obtain ⟨p, hp⟩ := (exOk_iff _).mp hpre
  obtain ⟨bs, hbs⟩ := (exOk_iff _).mp hb
  have h1 : collectLoop (Except.ok h :: post) = .error .zeroDivision := by
    show (Except.ok h >>= fun h' => histBits h' >>= fun bs' => expVal h' >>= fun e' =>
      collectLoop post >>= fun q => pure (bs' ++ q.1, e' :: q.2)) = _
    rw [bind_ok, hbs, bind_ok]
    rw [show expVal h = Except.error RunErr.zeroDivision from by rw [expVal, if_pos ht]]
    rw [bind_err]
  rw [collectLoop_append, hp, bind_ok, h1]
  rfl

theorem collectClock_eq :
    ∀ (ts : List Nat) (c : Nat), collectClock ts c = max c (ts.foldr max 0) := by
  intro ts
  induction ts with
  | nil => intro c; simp [collectClock]
  | cons t ts ih =>
    intro c
    rw [collectClock, ih, List.foldr_cons, Nat.max_assoc]

theorem foldr_max_le_sum : ∀ ts : List Nat, ts.foldr max 0 ≤ ts.sum := by
  intro ts
  induction ts with
  | nil => simp
  | cons t ts ih =>
    rw [List.foldr_cons, List.sum_cons]
    exact Nat.max_le.mpr ⟨Nat.le_add_right t _, le_trans ih (Nat.le_add_left _ _)⟩

theorem digitChar_bit (b : Nat) (hb : b = 0 ∨ b = 1) :
    Nat.digitChar b = '0' ∨ Nat.digitChar b = '1' := by
  rcases hb with h | h <;> subst h
  · exact Or.inl rfl
  · exact Or.inr rfl

/-! ## The claims -/

/-- C1 (as stated, refuted): the claim asserts the final bit sequence
always has exactly `outputBits` elements, even when the bases supply
fewer raw bits.  Concretely: a 256-bit request in which each of the 9
bases returns the histogram `{"01": 1}` (18 raw bits in total) completes
and hands a bit string of length 18, not 256, to the caller. -/
theorem C1_counterexample :
    (generate_entropy 45 256 (List.replicate 9 (.ok hist01))).map
        (fun o => o.bits.length) = .ok 18 ∧ (18 : Nat) ≠ 256 :=
  ⟨rfl, by decide⟩

/-- C1 (amended): on every run that completes, the bit string handed to
output assembly has `min outputBits rawBitCount` elements - exactly
`outputBits` only when the bases supplied at least `outputBits` raw
bits - and each element is 0 or 1. -/
theorem C1_theorem (theta : ℚ) (n : Nat) (results : List (Except RunErr Hist))
    (rawBits : List Nat) (bs : List Char)
    (hc : (collectLoop results).map Prod.fst = .ok rawBits)
    (hg : (generate_entropy theta n results).map GenOutput.bits = .ok bs) :
    bs.length = min n rawBits.length ∧ ∀ c ∈ bs, c = '0' ∨ c = '1' := by
  obtain ⟨p, hp, hfst⟩ := map_eq_ok _ _ _ hc
  obtain ⟨out, hout, hbits⟩ := map_eq_ok _ _ _ hg
  rw [generate_eq theta n results p hp] at hout
  obtain ⟨v, hv, hfv⟩ := map_eq_ok _ _ _ hout
  subst hfst
  constructor
  · rw [← hbits, ← hfv]
    simp [List.length_take]
  · intro c hcmem
    rw [← hbits, ← hfv] at hcmem
    exact intBase2_chars _ v hv c hcmem

/-- C1 witness: a plentiful 8-bit run over 9 bases each answering
`{"00": 1}`. -/
theorem C1_witness :
    (List.replicate 8 '0').length = min 8 (List.replicate 18 (0 : Nat)).length ∧
      ∀ c ∈ List.replicate 8 '0', c = '0' ∨ c = '1' :=
  C1_theorem 45 8 (List.replicate 9 (.ok hist00))
    (List.replicate 18 0) (List.replicate 8 '0') rfl rfl

/-- C2 (as stated, refuted): when the bases supply fewer raw bits than
requested, the claim demands an explicit "insufficient entropy
collected" failure.  Concretely: a 256-bit request in which each of the
9 bases returns `{"11": 2}` (36 raw bits) returns successfully with a
36-bit result - fewer bits than requested, and no error of any kind. -/
theorem C2_counterexample :
    (generate_entropy 45 256 (List.replicate 9 (.ok hist11x2))).map
        (fun o => o.bits.length) = .ok 36 ∧ (36 : Nat) < 256 :=
  ⟨rfl, by decide⟩

/-- C2 (amended): when the surviving bases supply fewer raw bits than
requested (at least one, each 0 or 1), the run does not fail: it returns
successfully, with exactly the raw bits - i.e. fewer than requested.
No insufficient-entropy error exists in the implementation. -/
theorem C2_theorem (theta : ℚ) (n : Nat) (results : List (Except RunErr Hist))
    (rawBits : List Nat)
    (hc : (collectLoop results).map Prod.fst = .ok rawBits)
    (hne : rawBits ≠ []) (hbin : ∀ b ∈ rawBits, b = 0 ∨ b = 1)
    (hlen : rawBits.length < n) :
    (generate_entropy theta n results).map (fun o => o.bits.length) =
      .ok rawBits.length ∧ rawBits.length < n := by
  refine ⟨?_, hlen⟩
  obtain ⟨p, hp, hfst⟩ := map_eq_ok _ _ _ hc
  subst hfst
  have htake : p.1.take n = p.1 := List.take_of_length_le (le_of_lt hlen)
  have hchars : ∀ c ∈ (p.1.take n).map Nat.digitChar, c = '0' ∨ c = '1' := by
    rw [htake]
    intro c hcmem
    obtain ⟨b, hbm, hbc⟩ := List.mem_map.mp hcmem
    rw [← hbc]
    exact digitChar_bit b (hbin b hbm)
  have hnemap : (p.1.take n).map Nat.digitChar ≠ [] := by
    rw [htake]
    simpa using hne
  obtain ⟨v, hv⟩ := intBase2_isOk _ hnemap hchars
  rw [generate_eq theta n results p hp, hv]
  simp only [Except.map]
  rw [List.length_map, htake]

/-- C2 witness: a scarce run - 9 bases each answering `{"10": 1}` for a
256-bit request - completes with the 18 raw bits. -/
theorem C2_witness :
    (generate_entropy 45 256 (List.replicate 9 (.ok hist10))).map
        (fun o => o.bits.length) =
      .ok ((List.replicate 9 [(1 : Nat), 0]).flatten.length) ∧
      (List.replicate 9 [(1 : Nat), 0]).flatten.length < 256 :=
  C2_theorem 45 256 (List.replicate 9 (.ok hist10))
    ((List.replicate 9 [(1 : Nat), 0]).flatten) rfl (by decide) (by decide) (by decide)

/-- C3 (as stated, refuted): the claim asserts a single basis's adapter
error is isolated and the run still completes from the other bases.
Concretely: with 9 bases of which the fifth raises an adapter error on
collection and the other eight answer `{"00": 1}`, the whole run aborts
with that adapter error and produces nothing. -/
theorem C3_counterexample :
    generate_entropy 45 256
        (List.replicate 4 (.ok hist00) ++ .error .adapter :: List.replicate 4 (.ok hist00)) =
      .error .adapter := rfl

/-- C3 (amended): a single per-basis adapter error is not isolated: the
first basis whose backend call fails makes `generate_entropy` propagate
that error, discarding all other bases' data. -/
theorem C3_theorem (theta : ℚ) (n : Nat) (pre post : List (Except RunErr Hist))
    (hpre : exOk (collectLoop pre) = true) :
    generate_entropy theta n (pre ++ .error .adapter :: post) = .error .adapter := by
  obtain ⟨p, hp⟩ := (exOk_iff _).mp hpre
  have hcl : collectLoop (pre ++ .error .adapter :: post) = .error .adapter := by
    rw [collectLoop_append, hp, bind_ok]
    rfl
  exact generate_err theta n _ _ hcl

/-- C3 witness: one healthy basis before and one after the failing
basis. -/
theorem C3_witness :
    generate_entropy 45 256 ([.ok hist00] ++ .error .adapter :: [.ok hist01]) =
      .error .adapter :=
  C3_theorem 45 256 [.ok hist00] [.ok hist01] rfl

/-- C4 (confirmed): a histogram entry whose key is an integer `0-3` or a
two-character binary string contributes, at its position in the pool,
exactly `count` copies of its 2-bit pattern - `2 * count` individual
bits - once per observed occurrence. -/
theorem C4_theorem (pre post : Hist) (k : QKey) (c : Nat) (bs ps : List Nat)
    (hk : GoodKey k) (hb : bitsOfKey k = .ok bs) (hpre : histBits pre = .ok ps) :
    bs.length = 2 ∧ (∀ b ∈ bs, b = 0 ∨ b = 1) ∧
      histBits (pre ++ (k, c) :: post) =
        (histBits post).map (fun rs => ps ++ ((List.replicate c bs).flatten ++ rs)) ∧
      (List.replicate c bs).flatten.length = 2 * c := by
  have hbs2 : bs = [0, 0] ∨ bs = [0, 1] ∨ bs = [1, 0] ∨ bs = [1, 1] := by
    cases k with
    | intKey m =>
      have hm : m ≤ 3 := hk
      interval_cases m
      · exact Or.inl (Except.ok.inj hb).symm
      · exact Or.inr (Or.inl (Except.ok.inj hb).symm)
      · exact Or.inr (Or.inr (Or.inl (Except.ok.inj hb).symm))
      · exact Or.inr (Or.inr (Or.inr (Except.ok.inj hb).symm))
    | strKey s =>
      rcases s with _ | ⟨a, _ | ⟨b2, _ | ⟨c3, t⟩⟩⟩
      · exact False.elim hk
      · exact False.elim hk
      · obtain ⟨ha, hb2c⟩ := hk
        rcases ha with rfl | rfl <;> rcases hb2c with rfl | rfl
        · exact Or.inl (Except.ok.inj hb).symm
        · exact Or.inr (Or.inl (Except.ok.inj hb).symm)
        · exact Or.inr (Or.inr (Or.inl (Except.ok.inj hb).symm))
        · exact Or.inr (Or.inr (Or.inr (Except.ok.inj hb).symm))
      · exact False.elim hk
  have hlen2 : bs.length = 2 := by
    rcases hbs2 with rfl | rfl | rfl | rfl <;> rfl
  refine ⟨hlen2, ?_, ?_, ?_⟩
  · rcases hbs2 with rfl | rfl | rfl | rfl <;> decide
  · rw [histBits_append, hpre, bind_ok, histBits_cons_of k bs c post hb]
    cases histBits post <;> simp [Except.map]
  · rw [List.length_flatten, List.map_replicate, hlen2, List.sum_replicate, smul_eq_mul]
    omega

/-- C4 witness: the spec's own example, the entry `("01", 3)` alone:
three pairs, six bits. -/
theorem C4_witness :
    ([0, 1] : List Nat).length = 2 ∧ (∀ b ∈ ([0, 1] : List Nat), b = 0 ∨ b = 1) ∧
      histBits ([] ++ (QKey.strKey ['0', '1'], 3) :: []) =
        (histBits []).map
          (fun rs => [] ++ ((List.replicate 3 ([0, 1] : List Nat)).flatten ++ rs)) ∧
      (List.replicate 3 ([0, 1] : List Nat)).flatten.length = 2 * 3 :=
  C4_theorem [] [] (QKey.strKey ['0', '1']) 3 [0, 1] []
    ⟨Or.inl rfl, Or.inr rfl⟩ rfl rfl

/-- C5 (as stated, refuted): the claim asserts the generation request
returns only a job identifier and never the generated bits.  Concretely:
an 8-bit request over 9 bases each answering `{"01": 1}` is answered,
synchronously, with the generated key `"55"` in the response body of the
very request that started the run; no job identifier exists. -/
theorem C5_counterexample :
    generateRoute 8 45 (List.replicate 9 (.ok hist01)) = .success ['5', '5'] := rfl

/-- C5 (amended): the generation request is synchronous: for every valid
request, the handler runs the full generation before answering, and the
success response carries the generated hex key directly; there is no job
identifier and no polling. -/
theorem C5_theorem (bits : Int) (theta : ℚ) (results : List (Except RunErr Hist))
    (hx : List Char)
    (hb1 : 1 ≤ bits) (hb2 : bits ≤ 2048) (ht1 : 0 ≤ theta) (ht2 : theta ≤ 90)
    (hg : (generate_entropy theta bits.toNat results).map GenOutput.hex = .ok hx) :
    generateRoute bits theta results = .success hx := by
  obtain ⟨out, hout, hhex⟩ := map_eq_ok _ _ _ hg
  rw [generateRoute, if_neg (by simp only [not_or, not_lt]; exact ⟨hb1, hb2⟩),
    if_neg (by simp only [not_or, not_lt]; exact ⟨ht1, ht2⟩), hout]
  show ApiResponse.success out.hex = ApiResponse.success hx
  rw [hhex]

/-- C5 witness: a valid 8-bit request, answered with the key `"aa"`. -/
theorem C5_witness :
    generateRoute 8 45 (List.replicate 9 (.ok histInt2)) = .success ['a', 'a'] :=
  C5_theorem 8 45 (List.replicate 9 (.ok histInt2)) ['a', 'a']
    (by decide) (by decide) (by decide) (by decide) rfl

/-- C6 (as stated, refuted): the claim asserts a zero-total histogram is
treated as an isolated per-basis failure with no division by zero.
Concretely: with 9 bases of which the fourth returns an empty histogram
and the rest `{"00": 1}`, the whole run aborts with the
`ZeroDivisionError` raised by the expectation-value division. -/
theorem C6_counterexample :
    generate_entropy 45 256
        (List.replicate 3 (.ok hist00) ++ .ok [] :: List.replicate 5 (.ok hist00)) =
      .error .zeroDivision := rfl

/-- C6 (amended): a basis histogram whose occurrence counts sum to zero
makes the expectation-value computation divide by zero, aborting the
entire run with `ZeroDivisionError`; it is not recovered as a per-basis
failure. -/
theorem C6_theorem (theta : ℚ) (n : Nat) (pre post : List (Except RunErr Hist)) (h : Hist)
    (hpre : exOk (collectLoop pre) = true)
    (hb : exOk (histBits h) = true) (ht : histTotal h = 0) :
    generate_entropy theta n (pre ++ .ok h :: post) = .error .zeroDivision :=
  generate_err theta n _ _ (collectLoop_zeroDiv pre post h hpre hb ht)

/-- C6 witness: an empty histogram between two healthy bases. -/
theorem C6_witness :
    generate_entropy 45 128 ([.ok hist01] ++ .ok [] :: [.ok hist10]) =
      .error .zeroDivision :=
  C6_theorem 45 128 [.ok hist01] [.ok hist10] [] rfl rfl rfl

/-- C7 (confirmed): for every histogram with positive total, the
expectation value `(n00 + n11 - n01 - n10) / T` - with each class count
summed over the key's accepted integer and string encodings - lies in
`[-1, 1]`, in exact rational arithmetic. -/
theorem C7_theorem (h : Hist) (ht : histTotal h ≠ 0) :
    expVal h = .ok (expValQ h) ∧ -1 ≤ expValQ h ∧ expValQ h ≤ 1 := by
  have hT : (0 : ℚ) < (histTotal h : ℚ) := by
    exact_mod_cast Nat.pos_of_ne_zero ht
  have hsumQ : (n00 h : ℚ) + n01 h + n10 h + n11 h ≤ (histTotal h : ℚ) := by
    exact_mod_cast nsum_le_total h
  have h00 : (0 : ℚ) ≤ n00 h := Nat.cast_nonneg _
  have h01 : (0 : ℚ) ≤ n01 h := Nat.cast_nonneg _
  have h10 : (0 : ℚ) ≤ n10 h := Nat.cast_nonneg _
  have h11 : (0 : ℚ) ≤ n11 h := Nat.cast_nonneg _
  refine ⟨by rw [expVal, if_neg ht], ?_, ?_⟩
  · rw [expValQ, le_div_iff₀ hT]
    linarith
  · rw [expValQ, div_le_one hT]
    linarith

/-- C7 witness: the spec's balanced 50-shot histogram. -/
theorem C7_witness :
    expVal histBalanced50 = .ok (expValQ histBalanced50) ∧
      -1 ≤ expValQ histBalanced50 ∧ expValQ histBalanced50 ≤ 1 :=
  C7_theorem histBalanced50 (by decide)

/-- C8 (as stated, refuted): the claim asserts every completed run's hex
key has exactly `outputBits/4` characters, for every requested length.
Concretely: a completed 6-bit run (9 bases, `{"11": 2}` each) returns the
2-character key `"3f"`, while `6 / 4 = 1`; the code rounds the key up to
whole hex digits instead of dropping the partial nibble. -/
theorem C8_counterexample :
    (generate_entropy 45 6 (List.replicate 9 (.ok hist11x2))).map
        (fun o => o.hex.length) = .ok 2 ∧ (2 : Nat) ≠ 6 / 4 :=
  ⟨rfl, by decide⟩

/-- C8 (amended): when `outputBits` is a positive multiple of 4, every
completed run's hex key has exactly `outputBits / 4` characters. -/
theorem C8_theorem (theta : ℚ) (n : Nat) (results : List (Except RunErr Hist))
    (hx : List Char) (h4 : 4 ∣ n) (h0 : 0 < n)
    (hg : (generate_entropy theta n results).map GenOutput.hex = .ok hx) :
    hx.length = n / 4 := by
  obtain ⟨out, hout, hhex⟩ := map_eq_ok _ _ _ hg
  obtain ⟨m, rfl⟩ := h4
  cases hc : collectLoop results with
  | error e =>
    rw [generate_err theta (4 * m) results e hc] at hout
    exact absurd hout (by simp)
  | ok p =>
    rw [generate_eq theta (4 * m) results p hc] at hout
    obtain ⟨v, hv, hfv⟩ := map_eq_ok _ _ _ hout
    have hlen : ((p.1.take (4 * m)).map Nat.digitChar).length ≤ 4 * m := by
      rw [List.length_map, List.length_take]
      omega
    have hv2 : v < 2 ^ (4 * m) :=
      lt_of_lt_of_le (intBase2_lt _ v hv) (Nat.pow_le_pow_right (by norm_num) hlen)
    have hm1 : 1 ≤ m := by omega
    have hdiv : 4 * m / 4 = m := by omega
    have h16 : v < 16 ^ (4 * m / 4) := by
      rw [hdiv, show (16 : Nat) = 2 ^ 4 from rfl, ← pow_mul]
      exact hv2
    have hhexlen : (natToHex v).length ≤ 4 * m / 4 :=
      natToHex_length_le v (4 * m / 4) (by omega) h16
    subst hhex
    rw [← hfv]
    show (zfill (4 * m / 4) (natToHex v)).length = 4 * m / 4
    rw [zfill_length]
    omega

/-- C8 witness: a completed 8-bit run whose key `"55"` has `8 / 4 = 2`
characters. -/
theorem C8_witness :
    (['5', '5'] : List Char).length = 8 / 4 :=
  C8_theorem 45 8 (List.replicate 9 (.ok histInt1)) ['5', '5']
    (by decide) (by decide) rfl

/-- C9 (confirmed, in the timed model `collectClock`): because all nine
jobs are submitted before the first `job.result()` call and each wait
only advances the clock to that job's completion instant, the collection
phase finishes at the maximum single submission-to-result latency - not
at the sum of the latencies (strictly below the sum for two or more
positive durations). -/
theorem C9_theorem (ts : List Nat) (hpos : ∀ t ∈ ts, 0 < t) (h2 : 2 ≤ ts.length) :
    collectClock ts 0 = ts.foldr max 0 ∧ collectClock ts 0 < ts.sum := by
  have heq : collectClock ts 0 = ts.foldr max 0 := by
    rw [collectClock_eq]
    exact Nat.max_eq_right (Nat.zero_le _)
  refine ⟨heq, ?_⟩
  rw [heq]
  rcases ts with _ | ⟨a, _ | ⟨b, rest⟩⟩
  · simp at h2
  · simp at h2
  · have ha : 0 < a := hpos a (by simp)
    have hb : 0 < b := hpos b (by simp)
    have hm : rest.foldr max 0 ≤ rest.sum := foldr_max_le_sum rest
    simp only [List.foldr_cons, List.sum_cons]
    rw [Nat.max_lt, Nat.max_lt]
    omega

/-- C9 witness: three distinct positive latencies. -/
theorem C9_witness :
    collectClock [3, 1, 2] 0 = [3, 1, 2].foldr max 0 ∧
      collectClock [3, 1, 2] 0 < [3, 1, 2].sum :=
  C9_theorem [3, 1, 2] (by decide) (by decide)

/-- C10 (confirmed): `generate_entropy` is deterministic in the
backend's responses - it is a pure function of `theta`, `n_bits` and the
per-basis histograms, with no shuffle or other nondeterministic step
between bit extraction and output assembly - so two runs with the same
parameters and identical histograms return identical `bits` and `hex`
strings. -/
theorem C10_theorem (theta₁ theta₂ : ℚ) (n : Nat)
    (r₁ r₂ : List (Except RunErr Hist)) (hth : theta₁ = theta₂) (hr : r₁ = r₂) :
    (generate_entropy theta₁ n r₁).map GenOutput.bits =
        (generate_entropy theta₂ n r₂).map GenOutput.bits ∧
      (generate_entropy theta₁ n r₁).map GenOutput.hex =
        (generate_entropy theta₂ n r₂).map GenOutput.hex := by
  subst hth
  subst hr
  exact ⟨rfl, rfl⟩

/-- C10 witness: two textually identical 16-bit runs. -/
theorem C10_witness :
    (generate_entropy 45 16 (List.replicate 9 (.ok histBalanced50))).map GenOutput.bits =
        (generate_entropy 45 16 (List.replicate 9 (.ok histBalanced50))).map GenOutput.bits ∧
      (generate_entropy 45 16 (List.replicate 9 (.ok histBalanced50))).map GenOutput.hex =
        (generate_entropy 45 16 (List.replicate 9 (.ok histBalanced50))).map GenOutput.hex :=
  C10_theorem 45 45 16 (List.replicate 9 (.ok histBalanced50))
    (List.replicate 9 (.ok histBalanced50)) rfl rfl

end QuantumFoam
